import Mathlib

/-!
Verification development for the aleph event-to-publication bridge.

Shallow embedding of:
  * `src/common/util.js` — `promiseHash`, `promiseTimeout`,
    `b58MultihashForBuffer`, `isB58Multihash`;
  * the CLI handlers in the repository (the `publishRaw` command handler and
    the `oracle` command handler with its `orderPlacedHandler`).

JavaScript promises are modelled by their settlement behaviour: a promise
either resolves at some (logical) time with a value, rejects at some time
with an error message, or never settles (`pending`).  Errors are carried as
their message strings, as the source only ever inspects `err.message`.
-/

/-- Settlement behaviour of a JS promise: resolve at time `t` with a value,
reject at time `t` with an error message, or never settle. -/
inductive PResult (α : Type) where
  | resolved (t : Nat) (v : α)
  | rejected (t : Nat) (e : String)
  | pending
deriving DecidableEq, Repr

namespace PResult

/-- Time at which a promise settles, if it ever does. -/
def settleTime : PResult α → Option Nat
  | .resolved t _ => some t
  | .rejected t _ => some t
  | .pending => none

/-- True for a promise that resolved. -/
def isResolved : PResult α → Bool
  | .resolved _ _ => true
  | _ => false

/-- True for a promise that rejected. -/
def isRejected : PResult α → Bool
  | .rejected _ _ => true
  | _ => false

/-- Value of a resolved promise (defaulting on the other cases). -/
def pValue [Inhabited α] : PResult α → α
  | .resolved _ v => v
  | _ => default

end PResult

open PResult

/-- Attaching a synchronous callback to a promise (`promise.then(f)` with a
non-throwing `f`): it maps the resolved value and passes rejection through. -/
def pThen (p : PResult α) (f : α → β) : PResult β :=
  match p with
  | .resolved t v => .resolved t (f v)
  | .rejected t e => .rejected t e
  | .pending => .pending

/-- The first rejection among a list of promises: the one with the earliest
rejection time, ties resolved in favour of the earlier list position (the
order in which `Promise.all` subscribes to its inputs). -/
def firstRejection : List (PResult α) → Option (Nat × String)
  | [] => none
  | .rejected t e :: rest =>
    match firstRejection rest with
    | some (t', e') => if t' < t then some (t', e') else some (t, e)
    | none => some (t, e)
  | _ :: rest => firstRejection rest

/-- When every promise of the list resolves, the time the last one resolves
together with the list of resolved values; `none` otherwise. -/
def collectResolved : List (PResult α) → Option (Nat × List α)
  | [] => some (0, [])
  | .resolved t v :: rest =>
    match collectResolved rest with
    | some (tm, vs) => some (max t tm, v :: vs)
    | none => none
  | _ => none

/-- Settlement behaviour of `Promise.all`: rejects with the first rejection
among its inputs as soon as it happens (without waiting for the others);
resolves with all values once the last input resolves; otherwise pends. -/
def promiseAll (ps : List (PResult α)) : PResult (List α) :=
  match firstRejection ps with
  | some (t, e) => .rejected t e
  | none =>
    match collectResolved ps with
    | some (t, vs) => .resolved t vs
    | none => .pending

/-- JS property read `hash[k]` on an object modelled as an association list
(the keys of a JS object are distinct).  The `pending` default is never hit
for keys coming from `Object.keys(hash)`. -/
def jsGet (hash : List (String × PResult α)) (k : String) : PResult α :=
  match hash.find? (fun kv => kv.1 == k) with
  | some kv => kv.2
  | none => .pending

/-- Embedding of `promiseHash` (src/common/util.js): take the keys in order,
look up each key's promise, `Promise.all` them, and on resolution rebuild an
object zipping the keys with the resolved values. -/
def promiseHash (hash : List (String × PResult α)) : PResult (List (String × α)) :=
  let keys := hash.map Prod.fst
  let vals := keys.map (fun k => jsGet hash k)
  pThen (promiseAll vals) (fun resolved => keys.zip resolved)

/-- Message of the error constructed by `promiseTimeout` in the source:
`new Error("Timeout of " + timeout + "ms exceeded")`. -/
def timeoutMessage (timeout : Nat) : String :=
  "Timeout of " ++ toString timeout ++ "ms exceeded"

/-- Two-way race step used to model `Promise.race`: the promise that settles
first wins; on a tie the one earlier in the input array wins. -/
def raceBetter (a b : PResult α) : PResult α :=
  match settleTime a, settleTime b with
  | some ta, some tb => if tb < ta then b else a
  | some _, none => a
  | none, _ => b

/-- Settlement behaviour of `Promise.race` over an array of promises. -/
def promiseRace : List (PResult α) → PResult α
  | [] => .pending
  | p :: rest => raceBetter p (promiseRace rest)

/-- Embedding of `promiseTimeout` (src/common/util.js): race the given
promise against a timer promise that rejects at `timeout` milliseconds with
the timeout error. -/
def promiseTimeout (timeout : Nat) (p : PResult α) : PResult α :=
  promiseRace [p, .rejected timeout (timeoutMessage timeout)]

/-!
Content addressing layer.

`src/common/util.js` delegates to the npm libraries `crypto` (SHA-256),
`multihashes` (`encode`, `toB58String`, `fromB58String`, `validate`) and,
through `multihashes`, `bs58` (Bitcoin-alphabet base58).  Those libraries
are embedded here by their standard, documented algorithms: byte sequences
are `List Nat` with entries below 256; all fallible operations return
`Option` (a thrown JS exception is `none`).
-/

/-- The Bitcoin base58 alphabet used by `bs58`. -/
def b58Alphabet : List Char :=
  ['1', '2', '3', '4', '5', '6', '7', '8', '9',
   'A', 'B', 'C', 'D', 'E', 'F', 'G', 'H', 'J', 'K', 'L', 'M', 'N',
   'P', 'Q', 'R', 'S', 'T', 'U', 'V', 'W', 'X', 'Y', 'Z',
   'a', 'b', 'c', 'd', 'e', 'f', 'g', 'h', 'i', 'j', 'k', 'm', 'n',
   'o', 'p', 'q', 'r', 's', 't', 'u', 'v', 'w', 'x', 'y', 'z']

/-- Digit-to-character table lookup for base58 encoding. -/
def b58Char (d : Nat) : Char := b58Alphabet.getD d '?'

/-- Position of a character in a character list. -/
def charIndexIn : List Char → Char → Option Nat
  | [], _ => none
  | c :: rest, x => if c = x then some 0 else (charIndexIn rest x).map (· + 1)

/-- Character-to-digit lookup for base58 decoding; `none` on a character
outside the alphabet (the `bs58` decoder throws there). -/
def b58Index (c : Char) : Option Nat := charIndexIn b58Alphabet c

/-- Value of a digit list read least-significant digit first, in base `b`. -/
def valLSB (b : Nat) : List Nat → Nat
  | [] => 0
  | d :: rest => d + b * valLSB b rest

/-- Value of a digit list read most-significant digit first, in base `b`:
the left-to-right fold both `bs58` directions use. -/
def natFromBase (b : Nat) (digits : List Nat) : Nat :=
  digits.foldl (fun a d => a * b + d) 0

/-- Digits of `n` in base `b`, least-significant first.  The recursion is
fuelled so that the definition is structural (and hence evaluates inside
the kernel); `fuel = n` is always enough fuel. -/
def natToBaseAux (b : Nat) : Nat → Nat → List Nat
  | 0, _ => []
  | _ + 1, 0 => []
  | fuel + 1, n + 1 => (n + 1) % b :: natToBaseAux b fuel ((n + 1) / b)

/-- Digits of `n` in base `b`, most-significant first (no leading zero
digit; empty for `n = 0`). -/
def natToBase (b n : Nat) : List Nat := (natToBaseAux b n n).reverse

/-- Number of leading zero entries of a list of digits or bytes. -/
def countLeadingZeros : List Nat → Nat
  | [] => 0
  | x :: rest => if x = 0 then countLeadingZeros rest + 1 else 0

/-- Base58-encode a byte sequence (`bs58.encode`, as used by
`Multihash.toB58String`): one `'1'` per leading zero byte, then the base58
digits of the remaining big-endian value. -/
def b58Encode (bytes : List Nat) : String :=
  let z := countLeadingZeros bytes
  let n := natFromBase 256 bytes
  String.mk (List.replicate z '1' ++ (natToBase 58 n).map b58Char)

/-- Translate each character of a base58 string to its digit; `none` as soon
as one character is not in the alphabet. -/
def b58Digits : List Char → Option (List Nat)
  | [] => some []
  | c :: rest =>
    match b58Index c, b58Digits rest with
    | some d, some ds => some (d :: ds)
    | _, _ => none

/-- Base58-decode a string (`bs58.decode`, as used by
`Multihash.fromB58String`): fail on a character outside the alphabet,
otherwise one zero byte per leading zero digit (`'1'`), then the minimal
big-endian bytes of the value. -/
def b58Decode (s : String) : Option (List Nat) :=
  match b58Digits s.toList with
  | none => none
  | some digits =>
    let z := countLeadingZeros digits
    let n := natFromBase 58 digits
    some (List.replicate z 0 ++ natToBase 256 n)

/-- Single-byte hash-function codes of the `multihashes` code table relevant
here (sha1, sha2-256, sha2-512, sha3, blake2b, blake2s, dbl-sha2-256). -/
def hashFunctionCodes : List Nat := [0x11, 0x12, 0x13, 0x14, 0x40, 0x41, 0x56]

/-- Encoding step of `Multihash.encode`: hash-function code byte, digest
length byte, digest bytes. -/
def mhEncode (code : Nat) (digest : List Nat) : List Nat :=
  code :: digest.length :: digest

/-- Decoding step of `Multihash.decode` (which `Multihash.validate` runs):
reject a buffer shorter than two bytes, an unrecognized hash-function code,
or a digest whose length disagrees with the declared length. -/
def mhDecode (buf : List Nat) : Option (Nat × List Nat) :=
  match buf with
  | code :: len :: rest =>
    if hashFunctionCodes.contains code && rest.length == len then some (code, rest)
    else none
  | _ => none

/-- Parse a base58 multihash string into (hash-function code, digest bytes):
`Multihash.fromB58String` followed by `Multihash.decode`. -/
def mhParse (s : String) : Option (Nat × List Nat) :=
  match b58Decode s with
  | none => none
  | some buf => mhDecode buf

/-- Embedding of `isB58Multihash` (src/common/util.js): run
`Multihash.fromB58String` and `Multihash.validate` and turn any thrown
error into `false`. -/
def isB58Multihash (s : String) : Bool :=
  (mhParse s).isSome

/-!
SHA-256 (`crypto.createHash('sha256')`), implemented per FIPS 180-4 on
`Nat` with explicit reduction mod `2 ^ 32`.
-/

/-- Truncate to a 32-bit word. -/
def w32 (x : Nat) : Nat := x % 4294967296

/-- Right rotation of a 32-bit word by `n` bits. -/
def rotr32 (n x : Nat) : Nat := w32 ((x >>> n) ||| (x <<< (32 - n)))

/-- SHA-256 Ch function. -/
def shaCh (x y z : Nat) : Nat := (x &&& y) ^^^ ((x ^^^ 4294967295) &&& z)

/-- SHA-256 Maj function. -/
def shaMaj (x y z : Nat) : Nat := (x &&& y) ^^^ (x &&& z) ^^^ (y &&& z)

/-- SHA-256 big sigma 0. -/
def bigSigma0 (x : Nat) : Nat := rotr32 2 x ^^^ rotr32 13 x ^^^ rotr32 22 x

/-- SHA-256 big sigma 1. -/
def bigSigma1 (x : Nat) : Nat := rotr32 6 x ^^^ rotr32 11 x ^^^ rotr32 25 x

/-- SHA-256 small sigma 0. -/
def smallSigma0 (x : Nat) : Nat := rotr32 7 x ^^^ rotr32 18 x ^^^ (x >>> 3)

/-- SHA-256 small sigma 1. -/
def smallSigma1 (x : Nat) : Nat := rotr32 17 x ^^^ rotr32 19 x ^^^ (x >>> 10)

/-- The 64 SHA-256 round constants. -/
def sha256K : List Nat :=
  [1116352408, 1899447441, 3049323471, 3921009573, 961987163,
   1508970993, 2453635748, 2870763221, 3624381080, 310598401,
   607225278, 1426881987, 1925078388, 2162078206, 2614888103,
   3248222580, 3835390401, 4022224774, 264347078, 604807628,
   770255983, 1249150122, 1555081692, 1996064986, 2554220882,
   2821834349, 2952996808, 3210313671, 3336571891, 3584528711,
   113926993, 338241895, 666307205, 773529912, 1294757372,
   1396182291, 1695183700, 1986661051, 2177026350, 2456956037,
   2730485921, 2820302411, 3259730800, 3345764771, 3516065817,
   3600352804, 4094571909, 275423344, 430227734, 506948616,
   659060556, 883997877, 958139571, 1322822218, 1537002063,
   1747873779, 1955562222, 2024104815, 2227730452, 2361852424,
   2428436474, 2756734187, 3204031479, 3329325298]

/-- Running hash state: the eight 32-bit words of SHA-256. -/
structure HState where
  a : Nat
  b : Nat
  c : Nat
  d : Nat
  e : Nat
  f : Nat
  g : Nat
  h : Nat
deriving DecidableEq, Repr

/-- SHA-256 initial hash value. -/
def sha256Init : HState :=
  ⟨1779033703, 3144134277, 1013904242, 2773480762,
   1359893119, 2600822924, 528734635, 1541459225⟩

/-- The 8 big-endian bytes of a 64-bit value. -/
def be64 (n : Nat) : List Nat :=
  [(n >>> 56) % 256, (n >>> 48) % 256, (n >>> 40) % 256, (n >>> 32) % 256,
   (n >>> 24) % 256, (n >>> 16) % 256, (n >>> 8) % 256, n % 256]

/-- The 4 big-endian bytes of a 32-bit word. -/
def wordBytes (w : Nat) : List Nat :=
  [(w >>> 24) % 256, (w >>> 16) % 256, (w >>> 8) % 256, w % 256]

/-- SHA-256 padding: `0x80`, zero bytes up to 56 mod 64, then the bit length
as a 64-bit big-endian value. -/
def sha256Pad (msg : List Nat) : List Nat :=
  let padZeros := (120 - (msg.length + 1) % 64) % 64
  msg ++ 0x80 :: List.replicate padZeros 0 ++ be64 (msg.length * 8)

/-- Pack bytes into big-endian 32-bit words, four at a time. -/
def bytesToWords : List Nat → List Nat
  | a :: b :: c :: d :: rest => (((a * 256 + b) * 256 + c) * 256 + d) :: bytesToWords rest
  | _ => []

/-- One message-schedule extension step: append
`sigma1(w[t-2]) + w[t-7] + sigma0(w[t-15]) + w[t-16]`. -/
def scheduleStep (w : List Nat) : List Nat :=
  w ++ [w32 (smallSigma1 (w.getD (w.length - 2) 0) + w.getD (w.length - 7) 0 +
             smallSigma0 (w.getD (w.length - 15) 0) + w.getD (w.length - 16) 0)]

/-- Extend a 16-word block to the 64-word message schedule. -/
def sha256Schedule (block : List Nat) : List Nat :=
  (List.range 48).foldl (fun w _ => scheduleStep w) block

/-- One SHA-256 compression round for schedule word `w` and constant `k`. -/
def sha256Round (s : HState) (wk : Nat × Nat) : HState :=
  let t1 := w32 (s.h + bigSigma1 s.e + shaCh s.e s.f s.g + wk.2 + wk.1)
  let t2 := w32 (bigSigma0 s.a + shaMaj s.a s.b s.c)
  ⟨w32 (t1 + t2), s.a, s.b, s.c, w32 (s.d + t1), s.e, s.f, s.g⟩

/-- Compress one 16-word block into the running state. -/
def sha256Compress (st : HState) (block : List Nat) : HState :=
  let w := sha256Schedule block
  let r := (w.zip sha256K).foldl sha256Round st
  ⟨w32 (st.a + r.a), w32 (st.b + r.b), w32 (st.c + r.c), w32 (st.d + r.d),
   w32 (st.e + r.e), w32 (st.f + r.f), w32 (st.g + r.g), w32 (st.h + r.h)⟩

/-- Fold the compression function over the padded message, 16 words (64
bytes) per block. -/
def sha256Blocks (st : HState) : List Nat → HState
  | w0 :: w1 :: w2 :: w3 :: w4 :: w5 :: w6 :: w7 ::
    w8 :: w9 :: w10 :: w11 :: w12 :: w13 :: w14 :: w15 :: rest =>
      sha256Blocks (sha256Compress st [w0, w1, w2, w3, w4, w5, w6, w7,
                                       w8, w9, w10, w11, w12, w13, w14, w15]) rest
  | _ => st

/-- SHA-256 digest of a byte sequence, as 32 bytes. -/
def sha256 (msg : List Nat) : List Nat :=
  let st := sha256Blocks sha256Init (bytesToWords (sha256Pad msg))
  wordBytes st.a ++ wordBytes st.b ++ wordBytes st.c ++ wordBytes st.d ++
  wordBytes st.e ++ wordBytes st.f ++ wordBytes st.g ++ wordBytes st.h

/-- Embedding of `b58MultihashForBuffer` (src/common/util.js): SHA-256 the
buffer, wrap the digest as a sha2-256 multihash (`Multihash.encode` with
code `0x12`), and base58-encode it (`Multihash.toB58String`). -/
def b58MultihashForBuffer (buf : List Nat) : String :=
  b58Encode (mhEncode 0x12 (sha256 buf))

/-!
Round-trip lemmas for the positional base conversion underlying base58.
-/

theorem natFromBase_reverse (b : Nat) (l : List Nat) :
    natFromBase b l.reverse = valLSB b l := by
  induction l with
  | nil => rfl
  | cons d rest ih =>
    have h : natFromBase b (rest.reverse ++ [d]) = natFromBase b rest.reverse * b + d := by
      simp [natFromBase, List.foldl_append]
    rw [List.reverse_cons, h, ih, valLSB]
    ring

theorem natToBaseAux_zero (b fuel : Nat) : natToBaseAux b fuel 0 = [] := by
  cases fuel <;> rfl

theorem natToBaseAux_succ (b fuel : Nat) {n : Nat} (hn : n ≠ 0) :
    natToBaseAux b (fuel + 1) n = n % b :: natToBaseAux b fuel (n / b) := by
  cases n with
  | zero => exact absurd rfl hn
  | succ m => rfl

theorem natToBaseAux_ne_nil (b : Nat) {fuel n : Nat} (hn : n ≠ 0) (hf : 1 ≤ fuel) :
    natToBaseAux b fuel n ≠ [] := by
  cases fuel with
  | zero => omega
  | succ f =>
    rw [natToBaseAux_succ b f hn]
    exact List.cons_ne_nil _ _

theorem valLSB_natToBaseAux (b : Nat) (hb : 2 ≤ b) :
    ∀ fuel n, n ≤ fuel → valLSB b (natToBaseAux b fuel n) = n := by
  intro fuel
  induction fuel with
  | zero =>
    intro n hn
    have : n = 0 := by omega
    subst this
    rfl
  | succ f ih =>
    intro n hn
    by_cases h0 : n = 0
    · subst h0; rw [natToBaseAux_zero]; rfl
    · rw [natToBaseAux_succ b f h0, valLSB]
      have hdiv : n / b < n := Nat.div_lt_self (Nat.pos_of_ne_zero h0) (by omega)
      rw [ih (n / b) (by omega)]
      exact Nat.mod_add_div n b

theorem natToBaseAux_lt (b : Nat) (hb : 2 ≤ b) :
    ∀ fuel n d, d ∈ natToBaseAux b fuel n → d < b := by
  intro fuel
  induction fuel with
  | zero => intro n d hd; simp [natToBaseAux] at hd
  | succ f ih =>
    intro n d hd
    by_cases h0 : n = 0
    · subst h0; rw [natToBaseAux_zero] at hd; simp at hd
    · rw [natToBaseAux_succ b f h0] at hd
      rcases List.mem_cons.mp hd with rfl | hd
      · exact Nat.mod_lt _ (by omega)
      · exact ih _ _ hd

theorem natToBaseAux_getLast_ne_zero (b : Nat) (hb : 2 ≤ b) :
    ∀ fuel n, n ≠ 0 → n ≤ fuel → (natToBaseAux b fuel n).getLast? ≠ some 0 := by
  intro fuel
  induction fuel with
  | zero => intro n hn hf; omega
  | succ f ih =>
    intro n hn hf
    rw [natToBaseAux_succ b f hn]
    by_cases hq : n / b = 0
    · have hlt : n < b := by
        rcases Nat.lt_or_ge n b with h | h
        · exact h
        · exact absurd hq (by
            have : 1 ≤ n / b := Nat.one_le_div_iff (by omega) |>.mpr h
            omega)
      rw [hq, natToBaseAux_zero]
      have : n % b = n := Nat.mod_eq_of_lt hlt
      simp [this, hn]
    · have hqf : n / b ≤ f := by
        have : n / b < n := Nat.div_lt_self (Nat.pos_of_ne_zero hn) (by omega)
        omega
      have htail := ih (n / b) hq hqf
      have hq1 : 0 < n / b := Nat.pos_of_ne_zero hq
      obtain ⟨y, ys, hys⟩ := List.exists_cons_of_ne_nil
        (natToBaseAux_ne_nil b hq (by omega) : natToBaseAux b f (n / b) ≠ [])
      rw [hys]
      rw [hys] at htail
      rw [List.getLast?_cons_cons]
      exact htail

theorem valLSB_ne_zero (b : Nat) (hb : 2 ≤ b) :
    ∀ l : List Nat, l ≠ [] → l.getLast? ≠ some 0 → valLSB b l ≠ 0 := by
  intro l
  induction l with
  | nil => intro h; exact absurd rfl h
  | cons x rest ih =>
    intro _ hlast
    cases rest with
    | nil =>
      simp only [List.getLast?_singleton] at hlast
      have hx : x ≠ 0 := fun h => hlast (by rw [h])
      simp [valLSB]
      omega
    | cons y ys =>
      rw [List.getLast?_cons_cons] at hlast
      have hv := ih (List.cons_ne_nil _ _) hlast
      have hpos : 0 < b * valLSB b (y :: ys) :=
        Nat.mul_pos (by omega) (Nat.pos_of_ne_zero hv)
      show x + b * valLSB b (y :: ys) ≠ 0
      omega

theorem natToBaseAux_valLSB (b : Nat) (hb : 2 ≤ b) :
    ∀ (l : List Nat) (fuel : Nat), (∀ x ∈ l, x < b) → l.getLast? ≠ some 0 →
      valLSB b l ≤ fuel → natToBaseAux b fuel (valLSB b l) = l := by
  intro l
  induction l with
  | nil => intro fuel _ _ _; exact natToBaseAux_zero b fuel
  | cons d rest ih =>
    intro fuel hlt hlast hfuel
    have hd : d < b := hlt d (List.mem_cons_self d rest)
    cases rest with
    | nil =>
      simp only [List.getLast?_singleton] at hlast
      have hd0 : d ≠ 0 := fun h => hlast (by rw [h])
      have hval : valLSB b [d] = d := by simp [valLSB]
      rw [hval] at hfuel ⊢
      cases fuel with
      | zero => omega
      | succ f =>
        rw [natToBaseAux_succ b f hd0, Nat.mod_eq_of_lt hd, Nat.div_eq_of_lt hd,
          natToBaseAux_zero]
    | cons y ys =>
      rw [List.getLast?_cons_cons] at hlast
      have hvne : valLSB b (y :: ys) ≠ 0 := valLSB_ne_zero b hb _ (List.cons_ne_nil _ _) hlast
      have hval : valLSB b (d :: y :: ys) = d + b * valLSB b (y :: ys) := rfl
      set v := valLSB b (y :: ys) with hv
      have hne : d + b * v ≠ 0 := by
        have : 1 ≤ v := Nat.pos_of_ne_zero hvne
        have : b * v ≥ b := Nat.le_mul_of_pos_right b this
        omega
      rw [hval] at hfuel ⊢
      cases fuel with
      | zero => omega
      | succ f =>
        rw [natToBaseAux_succ b f hne]
        have hmod : (d + b * v) % b = d := by
          rw [Nat.add_mul_mod_self_left, Nat.mod_eq_of_lt hd]
        have hdivv : (d + b * v) / b = v := by
          rw [Nat.add_mul_div_left _ _ (by omega : 0 < b), Nat.div_eq_of_lt hd]
          omega
        rw [hmod, hdivv]
        congr 1
        apply ih f (fun x hx => hlt x (List.mem_cons_of_mem d hx)) hlast
        have : 1 ≤ v := Nat.pos_of_ne_zero hvne
        have : b * v ≥ 2 * v := Nat.mul_le_mul_right v hb
        omega

/-!
Base58 string-level round trip.
-/

theorem b58Index_b58Char {d : Nat} (hd : d < 58) : b58Index (b58Char d) = some d := by
  have h : ∀ i : Fin 58, b58Index (b58Char i.val) = some i.val := by decide
  exact h ⟨d, hd⟩

theorem b58Digits_map : ∀ ds : List Nat, (∀ d ∈ ds, d < 58) →
    b58Digits (ds.map b58Char) = some ds := by
  intro ds
  induction ds with
  | nil => intro _; rfl
  | cons d rest ih =>
    intro hlt
    have hd := hlt d (List.mem_cons_self d rest)
    rw [List.map_cons, b58Digits, b58Index_b58Char hd,
      ih (fun x hx => hlt x (List.mem_cons_of_mem d hx))]

theorem countLeadingZeros_eq_zero {l : List Nat} (h : l.head? ≠ some 0) :
    countLeadingZeros l = 0 := by
  cases l with
  | nil => rfl
  | cons x rest =>
    have hx : x ≠ 0 := fun hx0 => h (by rw [hx0]; rfl)
    simp [countLeadingZeros, hx]

theorem toList_mk (cs : List Char) : (String.mk cs).toList = cs := rfl

theorem b58Decode_b58Encode (bytes : List Nat) (hlt : ∀ x ∈ bytes, x < 256)
    (hh : bytes.head? ≠ some 0) : b58Decode (b58Encode bytes) = some bytes := by
  cases hbytes : bytes with
  | nil => decide
  | cons hd tl =>
    subst hbytes
    have hz : countLeadingZeros (hd :: tl) = 0 := countLeadingZeros_eq_zero hh
    have hlast : (hd :: tl).reverse.getLast? ≠ some 0 := by
      rw [List.getLast?_reverse]; exact hh
    have hrevlt : ∀ x ∈ (hd :: tl).reverse, x < 256 := fun x hx =>
      hlt x (List.mem_reverse.mp hx)
    have hn : natFromBase 256 (hd :: tl) = valLSB 256 (hd :: tl).reverse := by
      have := natFromBase_reverse 256 (hd :: tl).reverse
      rwa [List.reverse_reverse] at this
    set n := natFromBase 256 (hd :: tl) with hndef
    have hnne : n ≠ 0 := by
      rw [hn]
      exact valLSB_ne_zero 256 (by omega) _ (by simp) hlast
    -- the encoded string
    have henc : b58Encode (hd :: tl) = String.mk ((natToBase 58 n).map b58Char) := by
      rw [b58Encode, hz]
      rfl
    rw [henc, b58Decode, toList_mk]
    have hdig : b58Digits ((natToBase 58 n).map b58Char) = some (natToBase 58 n) :=
      b58Digits_map _ (fun d hd' => natToBaseAux_lt 58 (by omega) n n d
        (List.mem_reverse.mp hd'))
    have hz' : countLeadingZeros (natToBase 58 n) = 0 := by
      apply countLeadingZeros_eq_zero
      rw [natToBase, List.head?_reverse]
      exact natToBaseAux_getLast_ne_zero 58 (by omega) n n hnne (Nat.le_refl n)
    have hval : natFromBase 58 (natToBase 58 n) = n := by
      rw [natToBase, natFromBase_reverse]
      exact valLSB_natToBaseAux 58 (by omega) n n (Nat.le_refl n)
    have hbytesback : natToBase 256 n = hd :: tl := by
      rw [natToBase]
      have hfit : valLSB 256 (hd :: tl).reverse ≤ n := by rw [hn]
      have hmin := natToBaseAux_valLSB 256 (by omega) (hd :: tl).reverse n hrevlt hlast hfit
      rw [← hn] at hmin
      rw [hmin, List.reverse_reverse]
    rw [hdig]
    show some (List.replicate (countLeadingZeros (natToBase 58 n)) 0 ++
        natToBase 256 (natFromBase 58 (natToBase 58 n))) = some (hd :: tl)
    rw [hz', hval, hbytesback]
    rfl

/-!
Shape of SHA-256 digests, and the codec claims.
-/

theorem wordBytes_mem_lt (w : Nat) : ∀ x ∈ wordBytes w, x < 256 := by
  intro x hx
  simp [wordBytes] at hx
  rcases hx with h | h | h | h <;> omega

theorem sha256_length (msg : List Nat) : (sha256 msg).length = 32 := by
  unfold sha256
  simp [wordBytes]

theorem sha256_mem_lt (msg : List Nat) : ∀ x ∈ sha256 msg, x < 256 := by
  unfold sha256
  intro x hx
  simp only [List.mem_append] at hx
  rcases hx with ((((((h | h) | h) | h) | h) | h) | h) | h <;>
    exact wordBytes_mem_lt _ x h

theorem mhDecode_mhEncode (digest : List Nat) :
    mhDecode (mhEncode 0x12 digest) = some (0x12, digest) := by
  simp [mhDecode, mhEncode, hashFunctionCodes]

/-- Claim C3: for every byte sequence `b`, parsing the base58 text produced
by `b58MultihashForBuffer b` succeeds and yields the same content reference
(the sha2-256 multihash of `b`); in particular the text passes
`isB58Multihash`. -/
theorem digest_parse_roundtrip (b : List Nat) :
    b58Decode (b58MultihashForBuffer b) = some (mhEncode 0x12 (sha256 b)) ∧
    mhParse (b58MultihashForBuffer b) = some (0x12, sha256 b) ∧
    isB58Multihash (b58MultihashForBuffer b) = true := by
  have hdec : b58Decode (b58Encode (mhEncode 0x12 (sha256 b))) =
      some (mhEncode 0x12 (sha256 b)) := by
    apply b58Decode_b58Encode
    · intro x hx
      rcases List.mem_cons.mp hx with rfl | hx'
      · omega
      · rcases List.mem_cons.mp hx' with rfl | hx''
        · rw [sha256_length]; omega
        · exact sha256_mem_lt b x hx''
    · simp [mhEncode]
  have hb : b58MultihashForBuffer b = b58Encode (mhEncode 0x12 (sha256 b)) := rfl
  refine ⟨by rw [hb]; exact hdec, ?_, ?_⟩
  · rw [mhParse, hb, hdec]
    exact mhDecode_mhEncode (sha256 b)
  · rw [isB58Multihash, mhParse, hb, hdec]
    show (mhDecode (mhEncode 0x12 (sha256 b))).isSome = true
    rw [mhDecode_mhEncode]
    rfl

set_option maxRecDepth 8192

/-- Claim C4: `isB58Multihash` is the total boolean form of parsing (it
never throws: every thrown error is converted to `false`), and it returns
`false` on the empty string, on a string with characters outside the base58
alphabet, on a valid digest text truncated by one character, and on a digest
whose hash-function tag is unrecognized. -/
theorem isB58Multihash_spec :
    (∀ s, isB58Multihash s = (mhParse s).isSome) ∧
    isB58Multihash "" = false ∧
    isB58Multihash "not-a-hash" = false ∧
    isB58Multihash ((b58MultihashForBuffer [104, 105]).dropRight 1) = false ∧
    isB58Multihash (b58Encode (mhEncode 0x05 (List.replicate 32 171))) = false :=
  ⟨fun _ => rfl, by decide, by decide, by decide, by decide⟩

/-!
Behaviour of the concurrency primitives.
-/

theorem jsGet_vals {α : Type} : ∀ hash : List (String × PResult α),
    (hash.map Prod.fst).Nodup →
    (hash.map Prod.fst).map (fun k => jsGet hash k) = hash.map Prod.snd := by
  intro hash
  induction hash with
  | nil => intro _; rfl
  | cons kv rest ih =>
    intro hnd
    rw [List.map_cons] at hnd
    have hnodup := List.nodup_cons.mp hnd
    rw [List.map_cons, List.map_cons, List.map_cons]
    have hhead : jsGet (kv :: rest) kv.1 = kv.2 := by
      simp [jsGet, List.find?_cons]
    rw [hhead]
    congr 1
    have hsame : ∀ k ∈ rest.map Prod.fst, jsGet (kv :: rest) k = jsGet rest k := by
      intro k hk
      have hne : (kv.1 == k) = false := by
        rw [beq_eq_false_iff_ne]
        intro h
        exact hnodup.1 (h ▸ hk)
      simp [jsGet, List.find?_cons, hne]
    rw [List.map_congr_left hsame]
    exact ih hnodup.2

theorem firstRejection_cons_resolved {α : Type} (t : Nat) (v : α) (rest : List (PResult α)) :
    firstRejection (PResult.resolved t v :: rest) = firstRejection rest := rfl

theorem firstRejection_cons_pending {α : Type} (rest : List (PResult α)) :
    firstRejection (PResult.pending :: rest) = firstRejection rest := rfl

theorem firstRejection_none_of_all {α : Type} : ∀ ps : List (PResult α),
    (∀ p ∈ ps, p.isRejected = false) → firstRejection ps = none := by
  intro ps
  induction ps with
  | nil => intro _; rfl
  | cons p rest ih =>
    intro h
    have hrest := ih (fun q hq => h q (List.mem_cons_of_mem p hq))
    cases p with
    | resolved t v => rw [firstRejection_cons_resolved, hrest]
    | rejected t e => exact absurd (h _ (List.mem_cons_self _ _)) (by simp [PResult.isRejected])
    | pending => rw [firstRejection_cons_pending, hrest]

theorem firstRejection_no_rejected {α : Type} : ∀ ps : List (PResult α),
    firstRejection ps = none → ∀ p ∈ ps, ∀ t e, p ≠ PResult.rejected t e := by
  intro ps
  induction ps with
  | nil => intro _ p hp; simp at hp
  | cons q rest ih =>
    intro h p hp t e
    cases q with
    | rejected tq eq' =>
      rw [firstRejection] at h
      rcases hfr : firstRejection rest with _ | te
      · rw [hfr] at h; simp at h
      · rw [hfr] at h
        rcases te with ⟨t1, e1⟩
        by_cases hc : t1 < tq <;> simp [hc] at h
    | resolved tq v =>
      rw [firstRejection_cons_resolved] at h
      rcases List.mem_cons.mp hp with rfl | hp'
      · simp
      · exact ih h p hp' t e
    | pending =>
      rw [firstRejection_cons_pending] at h
      rcases List.mem_cons.mp hp with rfl | hp'
      · simp
      · exact ih h p hp' t e

theorem firstRejection_mem {α : Type} : ∀ ps : List (PResult α), ∀ t e,
    firstRejection ps = some (t, e) → PResult.rejected t e ∈ ps := by
  intro ps
  induction ps with
  | nil => intro t e h; simp [firstRejection] at h
  | cons q rest ih =>
    intro t e h
    cases q with
    | rejected tq eq' =>
      rw [firstRejection] at h
      rcases hfr : firstRejection rest with _ | te
      · rw [hfr] at h
        simp at h
        rcases h with ⟨rfl, rfl⟩
        exact List.mem_cons_self _ _
      · rw [hfr] at h
        rcases te with ⟨t1, e1⟩
        by_cases hc : t1 < tq
        · simp [hc] at h
          rcases h with ⟨rfl, rfl⟩
          exact List.mem_cons_of_mem _ (ih _ _ hfr)
        · simp [hc] at h
          rcases h with ⟨rfl, rfl⟩
          exact List.mem_cons_self _ _
    | resolved tq v =>
      rw [firstRejection_cons_resolved] at h
      exact List.mem_cons_of_mem _ (ih _ _ h)
    | pending =>
      rw [firstRejection_cons_pending] at h
      exact List.mem_cons_of_mem _ (ih _ _ h)

theorem firstRejection_min {α : Type} : ∀ ps : List (PResult α), ∀ t e,
    firstRejection ps = some (t, e) →
    ∀ p ∈ ps, ∀ t' e', p = PResult.rejected t' e' → t ≤ t' := by
  intro ps
  induction ps with
  | nil => intro t e h; simp [firstRejection] at h
  | cons q rest ih =>
    intro t e h p hp t' e' hpe
    cases q with
    | rejected tq eq' =>
      rw [firstRejection] at h
      rcases hfr : firstRejection rest with _ | te
      · rw [hfr] at h
        simp at h
        rcases h with ⟨rfl, rfl⟩
        rcases List.mem_cons.mp hp with rfl | hp'
        · cases hpe; exact Nat.le_refl _
        · exact absurd hpe (firstRejection_no_rejected rest hfr p hp' t' e')
      · rw [hfr] at h
        rcases te with ⟨t1, e1⟩
        by_cases hc : t1 < tq
        · simp [hc] at h
          rcases h with ⟨rfl, rfl⟩
          rcases List.mem_cons.mp hp with rfl | hp'
          · cases hpe; omega
          · exact ih _ _ hfr p hp' t' e' hpe
        · simp [hc] at h
          rcases h with ⟨rfl, rfl⟩
          rcases List.mem_cons.mp hp with rfl | hp'
          · cases hpe; exact Nat.le_refl _
          · have := ih _ _ hfr p hp' t' e' hpe
            omega
    | resolved tq v =>
      rw [firstRejection_cons_resolved] at h
      rcases List.mem_cons.mp hp with rfl | hp'
      · simp at hpe
      · exact ih _ _ h p hp' t' e' hpe
    | pending =>
      rw [firstRejection_cons_pending] at h
      rcases List.mem_cons.mp hp with rfl | hp'
      · simp at hpe
      · exact ih _ _ h p hp' t' e' hpe

theorem firstRejection_of_any {α : Type} : ∀ ps : List (PResult α),
    ps.any (fun p => p.isRejected) = true → ∃ t e, firstRejection ps = some (t, e) := by
  intro ps
  induction ps with
  | nil => intro h; simp at h
  | cons q rest ih =>
    intro h
    cases q with
    | rejected tq eq' =>
      rw [firstRejection]
      rcases hfr : firstRejection rest with _ | te
      · exact ⟨tq, eq', rfl⟩
      · rcases te with ⟨t1, e1⟩
        by_cases hc : t1 < tq
        · exact ⟨t1, e1, by simp [hc]⟩
        · exact ⟨tq, eq', by simp [hc]⟩
    | resolved tq v =>
      rw [List.any_cons,
        show (PResult.resolved tq v).isRejected = false from rfl, Bool.false_or] at h
      obtain ⟨t1, e1, hfr⟩ := ih h
      exact ⟨t1, e1, by rw [firstRejection_cons_resolved]; exact hfr⟩
    | pending =>
      rw [List.any_cons,
        show (PResult.pending : PResult α).isRejected = false from rfl, Bool.false_or] at h
      obtain ⟨t1, e1, hfr⟩ := ih h
      exact ⟨t1, e1, by rw [firstRejection_cons_pending]; exact hfr⟩

theorem collectResolved_all {α : Type} [Inhabited α] : ∀ ps : List (PResult α),
    (∀ p ∈ ps, p.isResolved = true) →
    ∃ t, collectResolved ps = some (t, ps.map PResult.pValue) := by
  intro ps
  induction ps with
  | nil => intro _; exact ⟨0, rfl⟩
  | cons q rest ih =>
    intro h
    obtain ⟨t, ht⟩ := ih (fun p hp => h p (List.mem_cons_of_mem q hp))
    cases q with
    | resolved tq v =>
      refine ⟨max tq t, ?_⟩
      rw [collectResolved, ht, List.map_cons]
      rfl
    | rejected tq e => exact absurd (h _ (List.mem_cons_self _ _)) (by simp [PResult.isResolved])
    | pending => exact absurd (h _ (List.mem_cons_self _ _)) (by simp [PResult.isResolved])

/-- Claim C5: `promiseHash` over a map of key-to-operation resolves, when
every operation resolves, to a map with exactly the same keys in which each
key holds its operation's resolved value; and when any operation rejects it
rejects with the earliest-rejecting operation's error (first-failure-wins),
even when other operations never settle (so it does not wait for them). -/
theorem promiseHash_spec {α : Type} [Inhabited α] (hash : List (String × PResult α))
    (hnd : (hash.map Prod.fst).Nodup) :
    ((hash.all fun kv => kv.2.isResolved) = true →
      ∃ t, promiseHash hash =
        PResult.resolved t (hash.map fun kv => (kv.1, kv.2.pValue))) ∧
    ((hash.any fun kv => kv.2.isRejected) = true →
      ∃ t e, promiseHash hash = PResult.rejected t e ∧
        (∃ kv ∈ hash, kv.2 = PResult.rejected t e) ∧
        ∀ kv ∈ hash, ∀ t' e', kv.2 = PResult.rejected t' e' → t ≤ t') := by
  have hvals : (hash.map Prod.fst).map (fun k => jsGet hash k) = hash.map Prod.snd :=
    jsGet_vals hash hnd
  have hunfold : promiseHash hash =
      pThen (promiseAll (hash.map Prod.snd))
        (fun resolved => (hash.map Prod.fst).zip resolved) := by
    rw [promiseHash]
    rw [hvals]
  constructor
  · intro hall
    have hres : ∀ p ∈ hash.map Prod.snd, p.isResolved = true := by
      intro p hp
      obtain ⟨kv, hkv, rfl⟩ := List.mem_map.mp hp
      exact List.all_eq_true.mp hall kv hkv
    have hfr : firstRejection (hash.map Prod.snd) = none := by
      apply firstRejection_none_of_all
      intro p hp
      cases p with
      | resolved t v => rfl
      | rejected t e => exact absurd (hres _ hp) (by simp [PResult.isResolved])
      | pending => exact absurd (hres _ hp) (by simp [PResult.isResolved])
    obtain ⟨t, hcol⟩ := collectResolved_all (hash.map Prod.snd) hres
    refine ⟨t, ?_⟩
    rw [hunfold, promiseAll, hfr, hcol, pThen]
    rw [List.map_map]
    rw [List.zip_map']
    rfl
  · intro hany
    have hany' : ((hash.map Prod.snd).any fun p => p.isRejected) = true := by
      obtain ⟨kv, hkv, hr⟩ := List.any_eq_true.mp hany
      exact List.any_eq_true.mpr ⟨kv.2, List.mem_map_of_mem Prod.snd hkv, hr⟩
    obtain ⟨t, e, hfr⟩ := firstRejection_of_any _ hany'
    refine ⟨t, e, ?_, ?_, ?_⟩
    · rw [hunfold, promiseAll, hfr, pThen]
    · obtain ⟨kv, hkv, hkv2⟩ := List.mem_map.mp (firstRejection_mem _ _ _ hfr)
      exact ⟨kv, hkv, hkv2⟩
    · intro kv hkv t' e' hkve
      exact firstRejection_min _ _ _ hfr kv.2 (List.mem_map_of_mem Prod.snd hkv) t' e' hkve

/-- Concrete maps for the `promiseHash` witness. -/
def hashAllOk : List (String × PResult Nat) :=
  [("a", .resolved 1 10), ("b", .resolved 2 20)]

/-- Concrete map with one never-settling and one rejecting operation. -/
def hashOneBad : List (String × PResult Nat) :=
  [("a", .pending), ("b", .rejected 3 "boom")]

theorem promiseHash_spec_witness :
    (∃ t, promiseHash hashAllOk =
      PResult.resolved t (hashAllOk.map fun kv => (kv.1, kv.2.pValue))) ∧
    (∃ t e, promiseHash hashOneBad = PResult.rejected t e ∧
      (∃ kv ∈ hashOneBad, kv.2 = PResult.rejected t e) ∧
      ∀ kv ∈ hashOneBad, ∀ t' e', kv.2 = PResult.rejected t' e' → t ≤ t') :=
  ⟨(promiseHash_spec hashAllOk (by decide)).1 (by decide),
   (promiseHash_spec hashOneBad (by decide)).2 (by decide)⟩

/-- Claim C6: `promiseTimeout` returns the wrapped promise's own settlement
(value or error) whenever it settles before the timeout, and rejects with
the timeout error carrying the timeout duration whenever the timer fires
first (the promise settles later, or never); in particular a 10ms bound
around a 1000ms operation rejects at 10ms with the timeout error. -/
theorem promiseTimeout_spec {α : Type} (timeout : Nat) (p : PResult α) :
    (∀ ts, settleTime p = some ts → ts < timeout → promiseTimeout timeout p = p) ∧
    (settleTime p = none →
      promiseTimeout timeout p = PResult.rejected timeout (timeoutMessage timeout)) ∧
    (∀ ts, settleTime p = some ts → timeout < ts →
      promiseTimeout timeout p = PResult.rejected timeout (timeoutMessage timeout)) ∧
    (∀ v : α, promiseTimeout 10 (PResult.resolved 1000 v) =
      PResult.rejected 10 (timeoutMessage 10)) := by
  have hrace : ∀ q : PResult α, promiseTimeout timeout q =
      raceBetter q (PResult.rejected timeout (timeoutMessage timeout)) := by
    intro q
    rw [promiseTimeout, promiseRace, promiseRace, promiseRace]
    cases q <;> rfl
  refine ⟨?_, ?_, ?_, ?_⟩
  · intro ts hts hlt
    rw [hrace]
    cases p with
    | resolved t v =>
      rw [settleTime] at hts
      cases hts
      rw [raceBetter]
      simp [settleTime]
      omega
    | rejected t e =>
      rw [settleTime] at hts
      cases hts
      rw [raceBetter]
      simp [settleTime]
      omega
    | pending => simp [settleTime] at hts
  · intro hnone
    rw [hrace]
    cases p with
    | resolved t v => simp [settleTime] at hnone
    | rejected t e => simp [settleTime] at hnone
    | pending => rfl
  · intro ts hts hgt
    rw [hrace]
    cases p with
    | resolved t v =>
      rw [settleTime] at hts
      cases hts
      rw [raceBetter]
      simp [settleTime]
      omega
    | rejected t e =>
      rw [settleTime] at hts
      cases hts
      rw [raceBetter]
      simp [settleTime]
      omega
    | pending => simp [settleTime] at hts
  · intro v
    rfl

theorem promiseTimeout_spec_witness :
    promiseTimeout 10 (PResult.resolved 3 (42 : Nat)) = PResult.resolved 3 42 ∧
    promiseTimeout 10 (PResult.pending : PResult Nat) =
      PResult.rejected 10 (timeoutMessage 10) ∧
    promiseTimeout 10 (PResult.rejected 20 "boom" : PResult Nat) =
      PResult.rejected 10 (timeoutMessage 10) :=
  ⟨(promiseTimeout_spec 10 (PResult.resolved 3 (42 : Nat))).1 3 rfl (by omega),
   (promiseTimeout_spec 10 (PResult.pending : PResult Nat)).2.1 rfl,
   (promiseTimeout_spec 10 (PResult.rejected 20 "boom" : PResult Nat)).2.2.1 20 rfl (by omega)⟩

/-!
The CLI handlers: the `publishRaw` command and the `oracle` command with its
`orderPlacedHandler`.  A handler run is modelled by the list of observable
actions it performs, in order.
-/

/-- An event delivered by the watched contract, with the content-reference
text the bridge is meant to publish. -/
structure EthEvent where
  orderId : Nat
  contentReferenceText : String
deriving DecidableEq, Repr

/-- Observable actions of a handler run.  `logInvalidReference` is the
action an InvalidReference drop-log (spec error taxonomy) would be; the
source never emits it. -/
inductive TraceAction where
  | logOut (msg : String)
  | logErr (msg : String)
  | logEvent (event : EthEvent)
  | logInvalidReference (ref : String)
  | networkCall (ns : String) (ref : String)
  | watchRegister
  | exitProc (code : Int)
deriving DecidableEq, Repr

namespace TraceAction

/-- True for an outbound network (publish) call. -/
def isNetworkCall : TraceAction → Bool
  | .networkCall _ _ => true
  | _ => false

/-- True for an InvalidReference classification log. -/
def isInvalidRefLog : TraceAction → Bool
  | .logInvalidReference _ => true
  | _ => false

/-- True for the registration of the event-watch handler. -/
def isWatchRegister : TraceAction → Bool
  | .watchRegister => true
  | _ => false

/-- True for a process-exit action. -/
def isExitProc : TraceAction → Bool
  | .exitProc _ => true
  | _ => false

end TraceAction

/-- Number of outbound network calls in a trace. -/
def countNetworkCalls (actions : List TraceAction) : Nat :=
  (actions.filter TraceAction.isNetworkCall).length

/-- Embedding of `orderPlacedHandler` from the oracle command source: on an
error, `console.error(err)`; otherwise `console.log(event)`.  Nothing else:
no validation, no publish call, no exit. -/
def orderPlacedHandler (err : Option String) (event : EthEvent) : List TraceAction :=
  match err with
  | some e => [TraceAction.logErr e]
  | none => [TraceAction.logEvent event]

/-- Identifiers in scope inside the `init.then` callback of the oracle
handler, per the source: module requires (`os`, `bootstrap`, `Web3`,
`SimpleWrite`), the handler's bindings (`opts`, `remotePeer`, `rpc`), the
`.then` callback's bindings (`node`, `remote`, `init`) and the module-level
function `orderPlacedHandler`.  Note `simplewrite` (lower case) and `s`
are not among them. -/
def oracleScopeNames : List String :=
  ["os", "bootstrap", "Web3", "SimpleWrite", "opts", "remotePeer", "rpc",
   "node", "remote", "init", "orderPlacedHandler"]

/-- Embedding of the body of `init.then(() => { ... })` in the oracle
handler, statement by statement: declare `web3` and `simpleWrite`, then
evaluate `simplewrite.setProvider(...)` and `const we = s.Write()` (each
throws a ReferenceError when its identifier is not in scope), then check
`web3.isConnected()` and either exit with code -1 or register the event
watch.  `connected` is the value `web3.isConnected()` would return. -/
def initThenBlockRun (rpc : String) (connected : Bool) : Except String (List TraceAction) :=
  let env := "simpleWrite" :: "web3" :: oracleScopeNames
  if env.contains "simplewrite" then
    if env.contains "s" then
      if !connected then
        Except.ok [TraceAction.logErr ("Unable to connect to ethereum RPC: " ++ rpc),
                   TraceAction.exitProc (-1)]
      else
        Except.ok [TraceAction.logOut ("Connected to ethereum RPC: " ++ rpc),
                   TraceAction.watchRegister]
    else Except.error "ReferenceError: s is not defined"
  else Except.error "ReferenceError: simplewrite is not defined"

/-- The same block behind its `.catch(err => console.log(err))`: a thrown
error is only logged and the process continues. -/
def initThenWithCatch (rpc : String) (connected : Bool) : List TraceAction :=
  match initThenBlockRun rpc connected with
  | Except.ok actions => actions
  | Except.error e => [TraceAction.logOut e]

/-- Embedding of the oracle command handler's lifecycle:
`bootstrap(opts).catch(exit 1).then(...)`.  `bootstrapResult` carries
whether a remote peer was configured; `initResult` is the settlement of the
`node.start()` / `openConnection` chain; `connected` is what
`web3.isConnected()` would return. -/
def oracleHandler (bootstrapResult : Except String Bool) (remotePeer : String)
    (hasDirectory : Bool) (initResult : Except String Unit)
    (rpc : String) (connected : Bool) : List TraceAction :=
  match bootstrapResult with
  | Except.error msg =>
    [TraceAction.logErr ("Error setting up aleph node: " ++ msg), TraceAction.exitProc 1]
  | Except.ok hasRemote =>
    let detachedLogs :=
      if hasRemote then []
      else [TraceAction.logOut "No remote peer specified, running in detached mode"]
    let dirLogs :=
      if hasDirectory then []
      else [TraceAction.logOut "No directory specified, running without directory"]
    match initResult with
    | Except.error e => detachedLogs ++ dirLogs ++ [TraceAction.logOut e]
    | Except.ok _ =>
      let connectLogs :=
        if hasRemote then [TraceAction.logOut ("Connected to " ++ remotePeer)] else []
      detachedLogs ++ dirLogs ++ connectLogs ++ initThenWithCatch rpc connected

/-- Modelled from the spec: `RestClient` (`src/api/RestClient.js`, the
PublicationClient) is not under src/; only its caller is.  Per spec 4.3 its
`publish` sends exactly one outbound request per call and performs no retry
inside the component.  The endpoint's behaviour is a function from the
attempt number to the settlement of that request. -/
def restClientPublish (endpoint : Nat → Except String String) (attempt : Nat)
    (ns statementBodyId : String) : List TraceAction × Except String String :=
  ([TraceAction.networkCall ns statementBodyId], endpoint attempt)

/-- Embedding of the `publishRaw` command handler: one `client.publish`
call, then `console.log` of the response or `console.error` of the error
message.  No retry logic of any kind appears in the source. -/
def publishRawHandler (endpoint : Nat → Except String String)
    (ns statementBodyId : String) : List TraceAction :=
  let r := restClientPublish endpoint 0 ns statementBodyId
  match r.2 with
  | Except.ok response => r.1 ++ [TraceAction.logOut response]
  | Except.error msg => r.1 ++ [TraceAction.logErr msg]

/-- The endpoint of end-to-end scenario C: the first two attempts fail with
a connection error, any later attempt would succeed. -/
def scenarioCEndpoint : Nat → Except String String :=
  fun attempt => if attempt < 2 then Except.error "connection error" else Except.ok "published"

/-- Modelled from the spec: every network-facing call of the
PublicationClient is wrapped in the Bounded primitive (`promiseTimeout`)
with a caller-supplied timeout (spec 4.2: a missing timeout is a design
defect). -/
def publicationClientCall (α : Type) (timeoutMs : Nat) (rawCall : PResult α) : PResult α :=
  promiseTimeout timeoutMs rawCall

/-- Claim C1 (code-bug evidence): the registered event handler
`orderPlacedHandler` never calls publish — for every event it performs no
network call at all; in particular, on an event carrying a valid base58
multihash it merely logs the event, instead of publishing exactly once as
specified. -/
theorem orderPlaced_valid_event_not_published :
    (∀ err event, countNetworkCalls (orderPlacedHandler err event) = 0) ∧
    isB58Multihash (b58MultihashForBuffer []) = true ∧
    orderPlacedHandler none ⟨1, b58MultihashForBuffer []⟩ =
      [TraceAction.logEvent ⟨1, b58MultihashForBuffer []⟩] := by
  refine ⟨?_, by decide, rfl⟩
  intro err event
  cases err <;> rfl

/-- Claim C2 (code-bug evidence): on the event
`{contentReferenceText: "not-a-hash"}` (an invalid reference) the handler
makes no network call, does not exit, and merely logs the raw event — it
performs no validation and emits no InvalidReference classification. -/
theorem orderPlaced_invalid_event_dropped :
    isB58Multihash "not-a-hash" = false ∧
    orderPlacedHandler none ⟨1, "not-a-hash"⟩ =
      [TraceAction.logEvent ⟨1, "not-a-hash"⟩] ∧
    ((orderPlacedHandler none ⟨1, "not-a-hash"⟩).all fun a =>
      !a.isNetworkCall && !a.isInvalidRefLog && !a.isExitProc) = true :=
  ⟨by decide, rfl, rfl⟩

/-- Claim C7 (code-bug evidence): under scenario C (the endpoint fails the
first two attempts with a connection error and would succeed on the third)
the `publishRaw` handler makes exactly one network call and reports the
error — there is no retry, so the outcome is a failure after one call, not
success after three. -/
theorem publishRaw_no_retry (ns statementBodyId : String) :
    publishRawHandler scenarioCEndpoint ns statementBodyId =
      [TraceAction.networkCall ns statementBodyId, TraceAction.logErr "connection error"] ∧
    countNetworkCalls (publishRawHandler scenarioCEndpoint ns statementBodyId) = 1 :=
  ⟨rfl, rfl⟩

/-- Claim C8 (code-bug evidence): when `bootstrap` (the peer-network setup)
fails, the handler logs a diagnostic and exits with status 1 before any
watch registration; but when bootstrap succeeds and the ethereum RPC is
unreachable (`web3.isConnected()` false), the process does NOT exit — the
init block throws on the undefined `simplewrite` before the connectivity
check, and that error is caught and only logged. -/
theorem startup_exit_codes :
    (∀ msg remotePeer hasDir initRes rpc connected,
      oracleHandler (Except.error msg) remotePeer hasDir initRes rpc connected =
        [TraceAction.logErr ("Error setting up aleph node: " ++ msg),
         TraceAction.exitProc 1] ∧
      ((oracleHandler (Except.error msg) remotePeer hasDir initRes rpc connected).all
        fun a => !a.isWatchRegister) = true) ∧
    oracleHandler (Except.ok true) "peer" true (Except.ok ()) "http://localhost:8545" false =
      [TraceAction.logOut "Connected to peer",
       TraceAction.logOut "ReferenceError: simplewrite is not defined"] ∧
    ((oracleHandler (Except.ok true) "peer" true (Except.ok ()) "http://localhost:8545" false).all
      fun a => !a.isExitProc && !a.isWatchRegister) = true :=
  ⟨fun msg remotePeer hasDir initRes rpc connected => ⟨rfl, rfl⟩, by decide, by decide⟩

/-- Evaluation of `promiseTimeout` on each promise shape. -/
theorem promiseTimeoutEval (α : Type) (T : Nat) :
    (∀ ta (v : α), promiseTimeout T (PResult.resolved ta v) =
      if T < ta then PResult.rejected T (timeoutMessage T) else PResult.resolved ta v) ∧
    (∀ ta e, promiseTimeout T (PResult.rejected ta e : PResult α) =
      if T < ta then PResult.rejected T (timeoutMessage T) else PResult.rejected ta e) ∧
    promiseTimeout T (PResult.pending : PResult α) =
      PResult.rejected T (timeoutMessage T) :=
  ⟨fun _ _ => rfl, fun _ _ => rfl, rfl⟩

/-- Claim C9: the PublicationClient's network call (spec-modelled, since
`RestClient` is not under src/) is exactly a `promiseTimeout`-wrapped raw
call; such a call always settles, and settles no later than the timeout —
no operation blocks indefinitely.  The in-src EventWatcher code makes no
network calls at all. -/
theorem publish_bounded_spec (α : Type) (timeoutMs : Nat) (rawCall : PResult α) :
    publicationClientCall α timeoutMs rawCall = promiseTimeout timeoutMs rawCall ∧
    settleTime (publicationClientCall α timeoutMs rawCall) ≠ none ∧
    (settleTime (publicationClientCall α timeoutMs rawCall)).getD 0 ≤ timeoutMs ∧
    ∀ err event, countNetworkCalls (orderPlacedHandler err event) = 0 := by
  obtain ⟨h1, h2, h3⟩ := promiseTimeoutEval α timeoutMs
  refine ⟨rfl, ?_, ?_, ?_⟩
  · show settleTime (promiseTimeout timeoutMs rawCall) ≠ none
    cases rawCall with
    | resolved ta v =>
      rw [h1]
      by_cases hc : timeoutMs < ta
      · rw [if_pos hc]; simp [settleTime]
      · rw [if_neg hc]; simp [settleTime]
    | rejected ta e =>
      rw [h2]
      by_cases hc : timeoutMs < ta
      · rw [if_pos hc]; simp [settleTime]
      · rw [if_neg hc]; simp [settleTime]
    | pending =>
      rw [h3]
      simp [settleTime]
  · show (settleTime (promiseTimeout timeoutMs rawCall)).getD 0 ≤ timeoutMs
    cases rawCall with
    | resolved ta v =>
      rw [h1]
      by_cases hc : timeoutMs < ta
      · rw [if_pos hc]; simp [settleTime]
      · rw [if_neg hc]; simp [settleTime]; omega
    | rejected ta e =>
      rw [h2]
      by_cases hc : timeoutMs < ta
      · rw [if_pos hc]; simp [settleTime]
      · rw [if_neg hc]; simp [settleTime]; omega
    | pending =>
      rw [h3]
      simp [settleTime]
  · intro err event
    cases err <;> rfl

/-- Claim C10: in the oracle handler's post-connection block, the lookup of
the undefined identifier `simplewrite` fails on every execution, whatever
the RPC endpoint and its connectivity, so the block throws a ReferenceError
before the connectivity check and before `we.watch(orderPlacedHandler)` is
reached; the surrounding catch only logs the error, so the run registers no
watch and does not exit. -/
theorem oracle_block_unreachable (rpc : String) (connected : Bool) :
    initThenBlockRun rpc connected =
      Except.error "ReferenceError: simplewrite is not defined" ∧
    initThenWithCatch rpc connected =
      [TraceAction.logOut "ReferenceError: simplewrite is not defined"] ∧
    ((initThenWithCatch rpc connected).all fun a =>
      !a.isWatchRegister && !a.isExitProc) = true :=
  ⟨rfl, rfl, rfl⟩

theorem publish_bounded_spec_witness :
    settleTime (publicationClientCall Nat 5 PResult.pending) ≠ none ∧
    (settleTime (publicationClientCall Nat 5 PResult.pending)).getD 0 ≤ 5 :=
  ⟨(publish_bounded_spec Nat 5 PResult.pending).2.1,
   (publish_bounded_spec Nat 5 PResult.pending).2.2.1⟩
